import Mathlib

/-!
# Verification of the satellite-conjunction core

Shallow embedding of the conjunction-finding pipeline:

* `propagate_tle.py` — `TLEHandler.sat_position` (nearest-epoch grouping and
  batched propagation) and `propagate_tle` (GMST sidereal rotation);
* `satellite_conjunction.py` — `SatConj.conjunctions` (proximity criteria,
  pass segmentation);
* `satellite_conjunctions.py` — `conjunctions` (lat/lon bounding-box mask,
  pass segmentation).

Times and epochs are modelled as integers (unix seconds); the external
propagation primitive (`sgp4`'s `tle.propagate` wrapped by `propagate_tle`)
is an opaque parameter `propagate : ℕ → ℤ → α` giving the position computed
from TLE snapshot `i` at time `t`.  Real-valued geometry (zenith angle, GMST
rotation) is modelled over `ℝ`; the bounding-box arithmetic over `ℚ`.
-/

/-- Minimum scan underlying `np.argmin`: returns `(index, value)` of the first
occurrence of the minimum, `none` on the empty list. -/
def npArgminPair : List ℤ → Option (ℕ × ℤ)
  | [] => none
  | v :: vs =>
    match npArgminPair vs with
    | none => some (0, v)
    | some (j, m) => if m < v then some (j + 1, m) else some (0, v)

/-- First index of the minimum of a list: the model of `np.argmin`
(numpy returns the first occurrence of the minimum value; `none` models the
`ValueError` numpy raises on an empty array). -/
def npArgmin (l : List ℤ) : Option ℕ :=
  (npArgminPair l).map Prod.fst

/-- Model of `np.argmin(np.abs(ut - unix_TLE_epoch))` — index of the TLE snapshot whose
epoch is nearest to the query time `t` (`propagate_tle.py` line 93,
`satellite_conjunction.py` line 86). -/
def closestEpochIdx (epochs : List ℤ) (t : ℤ) : Option ℕ :=
  npArgmin (epochs.map fun e => |t - e|)

/-- Total version of `closestEpochIdx`, defaulting to index `0`
(meaningful whenever the epoch library is non-empty). -/
def nearestD (epochs : List ℤ) (t : ℤ) : ℕ :=
  (closestEpochIdx epochs t).getD 0

/-- Model of `np.unique` — the sorted list of distinct values. -/
def uniqueSorted (l : List ℕ) : List ℕ :=
  List.insertionSort (· ≤ ·) l.dedup

/-- Failure modes of the position resolver.  `emptyLibrary` models the
`ValueError` numpy raises from `np.argmin` on an empty epoch array when the
TLE library holds zero snapshots (the spec's `EmptyLibraryError`). -/
inductive ResolveErr
  | emptyLibrary
deriving DecidableEq

/-- Model of `TLEHandler.sat_position` (`propagate_tle.py` lines 88–106; the identical
position-assembly loop is `satellite_conjunction.py` lines 82–97).  For each
time, the nearest-epoch index is found; times are grouped by that index, the
external propagation primitive is invoked once per group, and the groups'
outputs are concatenated in `np.unique` (sorted-index) order. -/
def satPosition {α : Type} (epochs : List ℤ) (propagate : ℕ → ℤ → α)
    (times : List ℤ) : Except ResolveErr (List α) :=
  match times.mapM (closestEpochIdx epochs) with
  | none => .error .emptyLibrary
  | some closest =>
      .ok ((uniqueSorted closest).flatMap fun i =>
        ((times.zip closest).filterMap fun p =>
          if p.2 = i then some p.1 else none).map (propagate i))

/-- numpy boolean-mask indexing `array[mask]`: keep the entries whose mask bit
is set, in order. -/
def maskFilter {β : Type} (mask : List Bool) (xs : List β) : List β :=
  ((mask.zip xs).filter fun p => p.1).map Prod.snd

/-- Consecutive differences `xs[1:] - xs[:-1]` of the filtered time array
(`satellite_conjunction.py` line 130). -/
def diffsList : List ℤ → List ℤ
  | t :: t' :: rest => (t' - t) :: diffsList (t' :: rest)
  | _ => []

/-- Model of `np.argwhere(...).flatten()` — the (increasing) indices of the entries
satisfying a predicate. -/
def idxsWhere {β : Type} (p : β → Bool) : List β → List ℕ
  | [] => []
  | x :: xs =>
    if p x then 0 :: (idxsWhere p xs).map (· + 1)
    else (idxsWhere p xs).map (· + 1)

/-- Model of `jumps = np.argwhere(diffs > deltime).flatten()`
(`satellite_conjunction.py` line 131). -/
def jumpsOf (deltime : ℤ) (cts : List ℤ) : List ℕ :=
  idxsWhere (fun d => decide (deltime < d)) (diffsList cts)

/-- Python slice `xs[a:b]`. -/
def pySlice {β : Type} (xs : List β) (a b : ℕ) : List β :=
  (xs.drop a).take (b - a)

/-- The slices cut at a jump-index list, starting at `s`:
`xs[s:j0+1]`, `xs[j0+1:j1+1]`, …, `xs[jlast+1:]`
(`satellite_conjunction.py` lines 141–147). -/
def sliceChunks {β : Type} (xs : List β) : List ℕ → ℕ → List (List β)
  | [], s => [xs.drop s]
  | j :: js, s => pySlice xs s (j + 1) :: sliceChunks xs js (j + 1)

/-- One pass record: the sliced time and position arrays
(`{'time': ..., 'position': ...}` in `satellite_conjunction.py`). -/
structure Pass (β : Type) where
  time : List ℤ
  position : List β

/-- Pass segmentation of `SatConj.conjunctions`
(`satellite_conjunction.py` lines 129–149): filter the time and position
arrays by the conjunction mask, find the jumps where consecutive filtered
times differ by more than `deltime`, and slice both filtered arrays at the
jumps; no jumps means one pass over everything (or no pass at all when the
mask holds no `True`). -/
def segmentPasses {β : Type} (deltime : ℤ) (times : List ℤ) (positions : List β)
    (mask : List Bool) : List (Pass β) :=
  if jumpsOf deltime (maskFilter mask times) = [] then
    if mask.any (fun b => b) then
      [⟨maskFilter mask times, maskFilter mask positions⟩]
    else []
  else
    List.zipWith Pass.mk
      (sliceChunks (maskFilter mask times) (jumpsOf deltime (maskFilter mask times)) 0)
      (sliceChunks (maskFilter mask positions) (jumpsOf deltime (maskFilter mask times)) 0)

/-- Modelled from the spec's words (§4.5), for comparison with the code's
segmentation: walk the (filtered) samples and place a boundary between
consecutive samples exactly when the gap exceeds the sampling interval; each
maximal run between boundaries, both ends inclusive, is one pass. -/
def gapRuns (deltime : ℤ) : List ℤ → List (List ℤ)
  | [] => []
  | [t] => [[t]]
  | t :: t' :: rest =>
    match gapRuns deltime (t' :: rest) with
    | [] => [[t]]
    | r :: rs => if deltime < t' - t then [t] :: r :: rs else (t :: r) :: rs

/-- A 3-vector of reals (an ECEF/TEME coordinate triple, metres). -/
abbrev Vec3 := ℝ × ℝ × ℝ

/-- Euclidean dot product (`np.einsum` contraction in
`satellite_conjunction.py` line 114). -/
noncomputable def dot3 (a b : Vec3) : ℝ :=
  a.1 * b.1 + a.2.1 * b.2.1 + a.2.2 * b.2.2

/-- Model of `np.linalg.norm`. -/
noncomputable def norm3 (a : Vec3) : ℝ :=
  Real.sqrt (dot3 a a)

/-- Componentwise vector difference (`sat_position - self.site_coords`). -/
noncomputable def sub3 (a b : Vec3) : Vec3 :=
  (a.1 - b.1, a.2.1 - b.2.1, a.2.2 - b.2.2)

/-- Zenith angle in degrees (`satellite_conjunction.py` line 114):
`arccos(dot(sat_vec, zen_vec)/norm(sat_vec)) * 180/pi`. -/
noncomputable def zenith_angle (sat_vec zen_vec : Vec3) : ℝ :=
  Real.arccos (dot3 sat_vec zen_vec / norm3 sat_vec) * 180 / Real.pi

/-- Per-sample zenith-criterion mask (`satellite_conjunction.py`
lines 111–117): the sample is in conjunction where the zenith angle is
strictly below the tolerance (degrees). -/
noncomputable def zenithMask (site_coords zen_vec : Vec3) (tolerance : ℝ)
    (sat_position : List Vec3) : List Prop :=
  sat_position.map fun p => zenith_angle (sub3 p site_coords) zen_vec < tolerance

/-- Failure modes of the proximity evaluator in `SatConj.conjunctions`.
`invalidCriterion` models the `NameError` Python raises at line 130 when
neither criterion branch assigned `conjunctions` (the spec's
`InvalidCriterionError`); `undefinedRadarSite` models the `NameError` raised
inside the `latlon` branch at line 126, where `radar_lat`, `radar_lon` and
`latlontol` are referenced but never defined in `satellite_conjunction.py`. -/
inductive ConjErr
  | invalidCriterion
  | undefinedRadarSite
deriving DecidableEq

/-- The proximity evaluator of `SatConj.conjunctions`
(`satellite_conjunction.py` lines 111–131): the `zenith` branch computes the
per-sample zenith mask; the `latlon` branch stops with a `NameError`
(`radar_lat`/`radar_lon`/`latlontol` are undefined names in this file); any
other criterion name leaves `conjunctions` unassigned, so its first use at
line 130 raises the failure the spec calls `InvalidCriterionError`. -/
noncomputable def satConjMask (conjtype : String) (tolerance : ℝ)
    (site_coords zen_vec : Vec3) (sat_position : List Vec3) :
    Except ConjErr (List Prop) :=
  if conjtype = "zenith" then
    .ok (zenithMask site_coords zen_vec tolerance sat_position)
  else if conjtype = "latlon" then
    .error .undefinedRadarSite
  else
    .error .invalidCriterion

/-- The lat/lon bounding-box mask of `satellite_conjunctions.conjunctions`
(`satellite_conjunctions.py` line 125):
`np.all([abs(sat_lat-radar_lat)<lattol, abs(sat_lon-radar_lon)<lontol], axis=0)`
— the elementwise conjunction of the two comparison arrays. -/
def latlonMask (sat_lat sat_lon : List ℚ) (radar_lat radar_lon lattol lontol : ℚ) :
    List Bool :=
  List.zipWith (· && ·)
    (sat_lat.map fun la => decide (|la - radar_lat| < lattol))
    (sat_lon.map fun lo => decide (|lo - radar_lon| < lontol))

/-- Julian centuries of UT1 since J2000 (`propagate_tle.py` line 137). -/
noncomputable def T_UT1 (JD : ℝ) : ℝ := (JD - 2451545.0) / 36525

/-- GMST in seconds of sidereal time — Vallado 2006 eqn. 2
(`propagate_tle.py` line 140). -/
noncomputable def GMST_seconds (T : ℝ) : ℝ :=
  67310.54841 + (876600 * 60 * 60 + 8640184.812866) * T
    + 0.093104 * T ^ 2 - 6.2e-6 * T ^ 3

/-- Python float `%` (result carries the sign of the divisor; for the positive
divisor `2*pi` this is `x - 2*pi*floor(x/(2*pi))`). -/
noncomputable def pyMod (x m : ℝ) : ℝ := x - m * (⌊x / m⌋ : ℝ)

/-- GMST reduced to an angle in radians (`propagate_tle.py` line 142):
`GMST*2*pi/86400. % (2*pi)`. -/
noncomputable def gmstAngle (JD : ℝ) : ℝ :=
  pyMod (GMST_seconds (T_UT1 JD) * 2 * Real.pi / 86400) (2 * Real.pi)

/-- The sidereal rotation applied to a TEME position
(`propagate_tle.py` lines 144–146): rotation by `-GMST` about the polar axis,
`Rot = [[cos, sin, 0], [-sin, cos, 0], [0, 0, 1]]` applied to the position. -/
noncomputable def rotPEF (θ : ℝ) (p : Vec3) : Vec3 :=
  (Real.cos θ * p.1 + Real.sin θ * p.2.1,
   -Real.sin θ * p.1 + Real.cos θ * p.2.1,
   p.2.2)

theorem npArgminPair_eq_none_iff : ∀ l : List ℤ, npArgminPair l = none ↔ l = [] := by
  intro l
  cases l with
  | nil => simp [npArgminPair]
  | cons v vs =>
    cases hvs : npArgminPair vs with
    | none => simp [npArgminPair, hvs]
    | some p => simp only [npArgminPair, hvs]; split <;> simp

theorem npArgminPair_spec : ∀ (l : List ℤ) (i : ℕ) (m : ℤ), npArgminPair l = some (i, m) →
    i < l.length ∧ l.getD i 0 = m ∧
    (∀ j, j < l.length → m ≤ l.getD j 0) ∧
    (∀ j, j < i → m < l.getD j 0) := by
  intro l
  induction l with
  | nil => intro i m h; simp [npArgminPair] at h
  | cons v vs ih =>
    intro i m h
    cases hvs : npArgminPair vs with
    | none =>
      have hnil : vs = [] := (npArgminPair_eq_none_iff vs).mp hvs
      subst hnil
      simp only [npArgminPair, Option.some.injEq, Prod.mk.injEq] at h
      obtain ⟨hi, hm⟩ := h
      subst hi; subst hm
      refine ⟨by simp, by simp, ?_, ?_⟩
      · intro j hj
        simp only [List.length_cons, List.length_nil] at hj
        interval_cases j
        simp
      · intro j hj; omega
    | some p =>
      obtain ⟨k, m'⟩ := p
      obtain ⟨hk, hkv, hmin, hfirst⟩ := ih k m' hvs
      simp only [npArgminPair, hvs] at h
      split at h
      · -- tail minimum is strictly below the head: index shifts by one
        rename_i hlt
        simp only [Option.some.injEq, Prod.mk.injEq] at h
        obtain ⟨hi, hm⟩ := h
        subst hi; subst hm
        refine ⟨by simpa using hk, by simpa using hkv, ?_, ?_⟩
        · intro j hj
          cases j with
          | zero => simpa using le_of_lt hlt
          | succ j' => simpa using hmin j' (by simpa using hj)
        · intro j hj
          cases j with
          | zero => simpa using hlt
          | succ j' => simpa using hfirst j' (by omega)
      · -- head is a (first-occurrence) minimum
        rename_i hnlt
        push_neg at hnlt
        simp only [Option.some.injEq, Prod.mk.injEq] at h
        obtain ⟨hi, hm⟩ := h
        subst hi; subst hm
        refine ⟨by simp, by simp, ?_, ?_⟩
        · intro j hj
          cases j with
          | zero => simp
          | succ j' => simpa using le_trans hnlt (hmin j' (by simpa using hj))
        · intro j hj; omega

theorem npArgmin_eq_none_iff (l : List ℤ) : npArgmin l = none ↔ l = [] := by
  rw [npArgmin]
  cases h : npArgminPair l with
  | none => simpa using (npArgminPair_eq_none_iff l).mp h
  | some p =>
    simp only [Option.map_some']
    constructor
    · intro hc; exact absurd hc (by simp)
    · intro hc; subst hc; simp [npArgminPair] at h

theorem npArgmin_spec (l : List ℤ) (i : ℕ) (h : npArgmin l = some i) :
    i < l.length ∧ (∀ j, j < l.length → l.getD i 0 ≤ l.getD j 0) ∧
    (∀ j, j < i → l.getD i 0 < l.getD j 0) := by
  rw [npArgmin] at h
  cases hp : npArgminPair l with
  | none => rw [hp] at h; simp at h
  | some p =>
    obtain ⟨k, m⟩ := p
    rw [hp] at h
    simp only [Option.map_some', Option.some.injEq] at h
    subst h
    obtain ⟨hk, hkv, hmin, hfirst⟩ := npArgminPair_spec l k m hp
    exact ⟨hk, fun j hj => by rw [hkv]; exact hmin j hj,
      fun j hj => by rw [hkv]; exact hfirst j hj⟩

theorem getD_map_lt {α β : Type} (f : α → β) (l : List α) (dα : α) (dβ : β) (j : ℕ)
    (hj : j < l.length) : (l.map f).getD j dβ = f (l.getD j dα) := by
  rw [List.getD_eq_getElem _ _ (by simpa using hj), List.getD_eq_getElem _ _ hj,
    List.getElem_map]

/-- C2: for a non-empty snapshot library with strictly increasing epochs, the
nearest-epoch lookup returns the index minimizing `|t - e_i|`, and a tie in
absolute distance is resolved to the smaller (earlier) index. -/
theorem closestEpoch_minimizes (epochs : List ℤ) (t : ℤ)
    (hsorted : List.Sorted (· < ·) epochs) (hne : epochs ≠ []) :
    ∃ i, closestEpochIdx epochs t = some i ∧ i < epochs.length ∧
      (∀ j, j < epochs.length → |t - epochs.getD i 0| ≤ |t - epochs.getD j 0|) ∧
      (∀ j, j < epochs.length → |t - epochs.getD j 0| = |t - epochs.getD i 0| → i ≤ j) := by
  cases hai : npArgmin (epochs.map fun e => |t - e|) with
  | none =>
    have := (npArgmin_eq_none_iff _).mp hai
    simp only [List.map_eq_nil_iff] at this
    exact absurd this hne
  | some i =>
    obtain ⟨hlen, hmin, hfirst⟩ := npArgmin_spec _ i hai
    rw [List.length_map] at hlen
    refine ⟨i, hai, hlen, ?_, ?_⟩
    · intro j hj
      have h := hmin j (by simpa using hj)
      rwa [getD_map_lt _ epochs 0 0 i hlen, getD_map_lt _ epochs 0 0 j hj] at h
    · intro j hj heq
      by_contra hc
      push_neg at hc
      have h := hfirst j hc
      rw [getD_map_lt _ epochs 0 0 i hlen, getD_map_lt _ epochs 0 0 j hj] at h
      omega

/-- Witness for `closestEpoch_minimizes` at epochs `[0, 10, 20]`, query time
`5` (equidistant from `0` and `10`). -/
theorem closestEpoch_minimizes_witness :
    ∃ i, closestEpochIdx [0, 10, 20] 5 = some i ∧ i < ([0, 10, 20] : List ℤ).length ∧
      (∀ j, j < ([0, 10, 20] : List ℤ).length →
        |(5 : ℤ) - ([0, 10, 20] : List ℤ).getD i 0| ≤ |(5 : ℤ) - ([0, 10, 20] : List ℤ).getD j 0|) ∧
      (∀ j, j < ([0, 10, 20] : List ℤ).length →
        |(5 : ℤ) - ([0, 10, 20] : List ℤ).getD j 0| = |(5 : ℤ) - ([0, 10, 20] : List ℤ).getD i 0| →
        i ≤ j) :=
  closestEpoch_minimizes [0, 10, 20] 5 (by decide) (by decide)

theorem abs_dist_mono {a b t1 t2 : ℤ} (hab : a ≤ b) (ht : t1 ≤ t2)
    (h : |t1 - b| < |t1 - a|) : |t2 - b| < |t2 - a| := by
  rcases abs_cases (t1 - a) with ⟨e1, _⟩ | ⟨e1, _⟩ <;>
    rcases abs_cases (t1 - b) with ⟨e2, _⟩ | ⟨e2, _⟩ <;>
    rcases abs_cases (t2 - a) with ⟨e3, _⟩ | ⟨e3, _⟩ <;>
    rcases abs_cases (t2 - b) with ⟨e4, _⟩ | ⟨e4, _⟩ <;>
    omega

/-- With a nondecreasing epoch library, the nearest-epoch index is monotone in
the query time (tie-breaking to the first minimum included). -/
theorem nearestD_mono (epochs : List ℤ) (hes : List.Sorted (· ≤ ·) epochs)
    {t1 t2 : ℤ} (h12 : t1 ≤ t2) : nearestD epochs t1 ≤ nearestD epochs t2 := by
  cases h1 : npArgmin (epochs.map fun e => |t1 - e|) with
  | none => simp [nearestD, closestEpochIdx, h1]
  | some i1 =>
    cases h2 : npArgmin (epochs.map fun e => |t2 - e|) with
    | none =>
      have h2nil := (npArgmin_eq_none_iff _).mp h2
      simp only [List.map_eq_nil_iff] at h2nil
      subst h2nil
      simp [closestEpochIdx] at h1
      exact absurd h1 (by simp [npArgmin, npArgminPair])
    | some i2 =>
      simp only [nearestD, closestEpochIdx, h1, h2, Option.getD_some]
      by_contra hc
      push_neg at hc
      obtain ⟨hl1, hmin1, hfirst1⟩ := npArgmin_spec _ i1 h1
      obtain ⟨hl2, hmin2, hfirst2⟩ := npArgmin_spec _ i2 h2
      rw [List.length_map] at hl1 hl2
      have hfa := hfirst1 i2 hc
      rw [getD_map_lt _ epochs 0 0 i1 hl1, getD_map_lt _ epochs 0 0 i2 hl2] at hfa
      have hfb := hmin2 i1 (by simpa using hl1)
      rw [getD_map_lt _ epochs 0 0 i2 hl2, getD_map_lt _ epochs 0 0 i1 hl1] at hfb
      have hse : epochs.getD i2 0 ≤ epochs.getD i1 0 := by
        have hp := List.pairwise_iff_get.mp hes ⟨i2, hl2⟩ ⟨i1, hl1⟩ hc
        rw [List.getD_eq_getElem _ _ hl2, List.getD_eq_getElem _ _ hl1]
        simpa using hp
      have := abs_dist_mono hse h12 hfa
      omega

theorem mapM_closest_total (epochs : List ℤ) (hne : epochs ≠ []) (times : List ℤ) :
    times.mapM (closestEpochIdx epochs) = some (times.map (nearestD epochs)) := by
  induction times with
  | nil => rfl
  | cons t ts ih =>
    have hsome : ∃ i, closestEpochIdx epochs t = some i := by
      cases h : closestEpochIdx epochs t with
      | none =>
        have := (npArgmin_eq_none_iff _).mp h
        simp only [List.map_eq_nil_iff] at this
        exact absurd this hne
      | some i => exact ⟨i, rfl⟩
    obtain ⟨i, hi⟩ := hsome
    rw [List.mapM_cons, hi, ih]
    simp [nearestD, hi]

theorem uniqueSorted_sorted (l : List ℕ) : List.Sorted (· < ·) (uniqueSorted l) := by
  have hs : List.Sorted (· ≤ ·) (uniqueSorted l) := List.sorted_insertionSort _ _
  have hnd : (uniqueSorted l).Nodup :=
    ((List.perm_insertionSort _ _).nodup_iff).mpr (List.nodup_dedup l)
  exact List.Pairwise.imp (fun h => lt_of_le_of_ne h.1 h.2) (List.Pairwise.and hs hnd)

theorem uniqueSorted_mem (l : List ℕ) (k : ℕ) : k ∈ uniqueSorted l ↔ k ∈ l :=
  ((List.perm_insertionSort _ _).mem_iff).trans List.mem_dedup

theorem zip_map_self {β γ : Type} (f : β → γ) (l : List β) :
    l.zip (l.map f) = l.map fun x => (x, f x) := by
  induction l with
  | nil => rfl
  | cons x xs ih => simp [ih]

theorem filterMap_if_eq {β : Type} (pairs : List (β × ℕ)) (u : ℕ) :
    (pairs.filterMap fun p => if p.2 = u then some p.1 else none)
      = (pairs.filter fun p => p.2 == u).map Prod.fst := by
  induction pairs with
  | nil => rfl
  | cons p ps ih =>
    by_cases hp : p.2 = u
    · simp [List.filterMap_cons, List.filter_cons, hp, ih]
    · simp [List.filterMap_cons, List.filter_cons, hp, ih]

theorem sorted_min_split {β : Type} (u : ℕ) :
    ∀ pairs : List (β × ℕ), List.Sorted (· ≤ ·) (pairs.map Prod.snd) →
      (∀ k ∈ pairs.map Prod.snd, u ≤ k) →
      pairs = (pairs.filter fun p => p.2 == u) ++ (pairs.filter fun p => !(p.2 == u)) := by
  intro pairs
  induction pairs with
  | nil => intro _ _; rfl
  | cons p ps ih =>
    intro hs hmin
    rw [List.map_cons, List.sorted_cons] at hs
    obtain ⟨hhead, htail⟩ := hs
    by_cases hp : p.2 = u
    · have hrec := ih htail (fun k hk => hmin k (by simp [hk]))
      simp only [List.filter_cons, hp, beq_self_eq_true, if_pos, Bool.not_true, if_neg,
        Bool.false_eq_true, not_false_eq_true, List.cons_append]
      exact congrArg (p :: ·) hrec
    · have hup : u < p.2 :=
        lt_of_le_of_ne (hmin p.2 (by simp)) (fun h => hp h.symm)
      have hAnil : (ps.filter fun q => q.2 == u) = [] := by
        rw [List.filter_eq_nil_iff]
        intro q hq
        have : p.2 ≤ q.2 := hhead q.2 (List.mem_map.mpr ⟨q, hq, rfl⟩)
        simp only [beq_iff_eq]
        omega
      have hBall : (ps.filter fun q => !(q.2 == u)) = ps := by
        rw [List.filter_eq_self]
        intro q hq
        have : p.2 ≤ q.2 := hhead q.2 (List.mem_map.mpr ⟨q, hq, rfl⟩)
        simp only [Bool.not_eq_true', beq_eq_false_iff_ne, ne_eq]
        omega
      have hcond : (p.2 == u) = false := by simpa using hp
      simp only [List.filter_cons, hcond, Bool.false_eq_true, if_neg, not_false_eq_true,
        Bool.not_false, if_pos, hAnil, hBall, List.nil_append]

theorem flatMap_congr {β γ : Type} {l : List β} {f g : β → List γ}
    (h : ∀ x ∈ l, f x = g x) : l.flatMap f = l.flatMap g := by
  induction l with
  | nil => rfl
  | cons x xs ih =>
    rw [List.flatMap_cons, List.flatMap_cons, h x (by simp),
      ih (fun y hy => h y (by simp [hy]))]

/-- Concatenating, over the sorted distinct keys, the key-filtered groups of a
key-sorted list reassembles the list itself: the core reassembly argument for
the grouped propagation loop in `sat_position`. -/
theorem grouped_flatMap_eq {β α : Type} (g : ℕ → β → α) :
    ∀ (us : List ℕ) (pairs : List (β × ℕ)),
      List.Sorted (· ≤ ·) (pairs.map Prod.snd) →
      List.Sorted (· < ·) us →
      (∀ k, k ∈ pairs.map Prod.snd ↔ k ∈ us) →
      (us.flatMap fun i =>
        (pairs.filterMap fun p => if p.2 = i then some p.1 else none).map (g i))
        = pairs.map fun p => g p.2 p.1 := by
  intro us
  induction us with
  | nil =>
    intro pairs _ _ hmem
    have hnil : pairs = [] := by
      cases pairs with
      | nil => rfl
      | cons p ps => exact absurd ((hmem p.2).mp (by simp)) (by simp)
    subst hnil; rfl
  | cons u us' ih =>
    intro pairs hsorted hus hmem
    have hus' : List.Sorted (· < ·) us' := hus.of_cons
    have hult : ∀ k ∈ us', u < k := List.rel_of_sorted_cons hus
    have humin : ∀ k ∈ pairs.map Prod.snd, u ≤ k := by
      intro k hk
      rcases List.mem_cons.mp ((hmem k).mp hk) with h | h
      · exact le_of_eq h.symm
      · exact le_of_lt (hult k h)
    have hsplit : pairs
        = (pairs.filter fun p => p.2 == u) ++ (pairs.filter fun p => !(p.2 == u)) :=
      sorted_min_split u pairs hsorted humin
    have hfirst : (pairs.filterMap fun p => if p.2 = u then some p.1 else none).map (g u)
        = (pairs.filter fun p => p.2 == u).map fun p => g p.2 p.1 := by
      rw [filterMap_if_eq, List.map_map]
      apply List.map_congr_left
      intro p hp
      have hpu : p.2 = u := by simpa using (List.mem_filter.mp hp).2
      simp [hpu]
    have htail : ∀ i ∈ us',
        (pairs.filterMap fun p => if p.2 = i then some p.1 else none)
          = ((pairs.filter fun p => !(p.2 == u)).filterMap
              fun p => if p.2 = i then some p.1 else none) := by
      intro i hi
      conv_lhs => rw [hsplit]
      rw [List.filterMap_append]
      have hAnil : ((pairs.filter fun p => p.2 == u).filterMap
          fun p => if p.2 = i then some p.1 else none) = [] := by
        rw [List.filterMap_eq_nil_iff]
        intro p hp
        have hpu : p.2 = u := by simpa using (List.mem_filter.mp hp).2
        have hne : u ≠ i := ne_of_lt (hult i hi)
        simp [hpu, hne]
      rw [hAnil, List.nil_append]
    have hrest : us'.flatMap (fun i =>
          (pairs.filterMap fun p => if p.2 = i then some p.1 else none).map (g i))
        = us'.flatMap (fun i =>
          ((pairs.filter fun p => !(p.2 == u)).filterMap
            fun p => if p.2 = i then some p.1 else none).map (g i)) :=
      flatMap_congr (fun i hi => by rw [htail i hi])
    have hBsorted : List.Sorted (· ≤ ·) ((pairs.filter fun p => !(p.2 == u)).map Prod.snd) :=
      hsorted.sublist ((List.filter_sublist pairs).map Prod.snd)
    have hBmem : ∀ k, k ∈ (pairs.filter fun p => !(p.2 == u)).map Prod.snd ↔ k ∈ us' := by
      intro k
      constructor
      · intro hk
        obtain ⟨p, hpB, hpk⟩ := List.mem_map.mp hk
        obtain ⟨hpp, hpcond⟩ := List.mem_filter.mp hpB
        have hne : p.2 ≠ u := by simpa using hpcond
        have hkp : k ∈ pairs.map Prod.snd := List.mem_map.mpr ⟨p, hpp, hpk⟩
        rcases List.mem_cons.mp ((hmem k).mp hkp) with h | h
        · exact absurd (hpk.trans h) hne
        · exact h
      · intro hk
        have hkp : k ∈ pairs.map Prod.snd := (hmem k).mpr (List.mem_cons_of_mem _ hk)
        obtain ⟨p, hpp, hpk⟩ := List.mem_map.mp hkp
        have hku : u < k := hult k hk
        refine List.mem_map.mpr ⟨p, List.mem_filter.mpr ⟨hpp, ?_⟩, hpk⟩
        simp only [Bool.not_eq_true', beq_eq_false_iff_ne, ne_eq, hpk]
        omega
    rw [List.flatMap_cons, hfirst, hrest, ih _ hBsorted hus' hBmem]
    conv_rhs => rw [hsplit]
    rw [List.map_append]

/-- C1 (amended): when the snapshot library is non-empty with nondecreasing
epochs (the library invariant) and the timestamp sequence is nondecreasing (the
sampler's own grid), the position resolver returns exactly one output per input
timestamp, in input order: output sample `i` is the propagation of input
timestamp `i` with its own nearest snapshot, regardless of the nearest-epoch
grouping.  (For unsorted timestamp inputs the loop concatenates results in
sorted epoch-group order instead of input order.) -/
theorem satPosition_sorted_order {α : Type} (epochs : List ℤ) (propagate : ℕ → ℤ → α)
    (times : List ℤ) (hes : List.Sorted (· ≤ ·) epochs) (hne : epochs ≠ [])
    (hts : List.Sorted (· ≤ ·) times) :
    satPosition epochs propagate times
      = .ok (times.map fun t => propagate (nearestD epochs t) t) := by
  have hm := mapM_closest_total epochs hne times
  have hclosest : List.Sorted (· ≤ ·) (times.map (nearestD epochs)) :=
    List.pairwise_map.mpr
      (List.Pairwise.imp (fun hab => nearestD_mono epochs hes hab) hts)
  have hA : List.Sorted (· ≤ ·)
      ((times.map fun x => (x, nearestD epochs x)).map Prod.snd) := by
    rw [List.map_map]; exact hclosest
  have hB : ∀ k, k ∈ (times.map fun x => (x, nearestD epochs x)).map Prod.snd ↔
      k ∈ uniqueSorted (times.map (nearestD epochs)) := by
    intro k
    rw [List.map_map]
    exact (uniqueSorted_mem (times.map (nearestD epochs)) k).symm
  simp only [satPosition, hm]
  rw [zip_map_self (nearestD epochs) times,
    grouped_flatMap_eq propagate (uniqueSorted (times.map (nearestD epochs)))
      (times.map fun x => (x, nearestD epochs x)) hA (uniqueSorted_sorted _) hB,
    List.map_map]
  rfl

/-- Witness for `satPosition_sorted_order`: epochs `[0, 100]`, sorted times
`[10, 90]`, probe propagator recording `(snapshot index, time)`. -/
theorem satPosition_sorted_order_witness :
    List.Sorted (· ≤ ·) ([0, 100] : List ℤ) ∧ ([0, 100] : List ℤ) ≠ [] ∧
    List.Sorted (· ≤ ·) ([10, 90] : List ℤ) ∧
    satPosition [0, 100] (fun i t => (i, t)) [10, 90]
      = .ok (([10, 90] : List ℤ).map fun t => ((nearestD [0, 100] t, t) : ℕ × ℤ)) :=
  ⟨by decide, by decide, by decide,
    satPosition_sorted_order [0, 100] (fun i t => (i, t)) [10, 90]
      (by decide) (by decide) (by decide)⟩

/-- Counterexample to C1 as stated ("for every timestamp sequence"): for the
unsorted timestamp array `[90, 10]` with epochs `[0, 100]`, using a probe
propagator that returns its input timestamp, the resolver returns `[10, 90]` —
sorted epoch-group order — whereas input order demands `[90, 10]`. -/
theorem satPosition_unsorted_counterexample :
    satPosition [0, 100] (fun _ t => t) [90, 10] = .ok [10, 90] ∧
    ([10, 90] : List ℤ) ≠ [90, 10] :=
  ⟨by rfl, by decide⟩

/-- C7 (amended): with a snapshot library holding zero snapshots, resolving any
NON-empty timestamp array fails with the empty-library error (`np.argmin`
raises on the empty epoch array).  The embedding is a pure function of the
library and its inputs, so the failure corrupts no state shared with other
objects. -/
theorem satPosition_empty_library {α : Type} (propagate : ℕ → ℤ → α)
    (times : List ℤ) (hne : times ≠ []) :
    satPosition [] propagate times = .error .emptyLibrary := by
  cases times with
  | nil => exact absurd rfl hne
  | cons t ts =>
    have hm : (t :: ts).mapM (closestEpochIdx ([] : List ℤ)) = none := by
      rw [List.mapM_cons]
      have hc : closestEpochIdx ([] : List ℤ) t = none := rfl
      rw [hc]
      rfl
    simp only [satPosition, hm]

/-- Witness for `satPosition_empty_library` at the one-element time array. -/
theorem satPosition_empty_library_witness :
    ([0] : List ℤ) ≠ [] ∧ satPosition [] (fun _ t => t) [0] = .error .emptyLibrary :=
  ⟨by decide, satPosition_empty_library (fun _ t => t) [0] (by decide)⟩

/-- Counterexample to C7 as stated ("for any timestamp array"): the EMPTY
timestamp array resolves to an empty series with no error even when the library
holds zero snapshots — the per-time `argmin` comprehension never runs. -/
theorem satPosition_empty_times_counterexample :
    satPosition ([] : List ℤ) (fun _ t => t) ([] : List ℤ) = .ok [] ∧
    ¬ ∃ e, satPosition ([] : List ℤ) (fun _ t => t) ([] : List ℤ) = .error e := by
  refine ⟨rfl, ?_⟩
  rintro ⟨e, he⟩
  have hok : satPosition ([] : List ℤ) (fun _ t => t) ([] : List ℤ) = .ok [] := rfl
  exact Except.noConfusion (hok.symm.trans he)

theorem jumpsOf_cons₂ (deltime t t' : ℤ) (rest : List ℤ) :
    jumpsOf deltime (t :: t' :: rest)
      = if deltime < t' - t then 0 :: (jumpsOf deltime (t' :: rest)).map (· + 1)
        else (jumpsOf deltime (t' :: rest)).map (· + 1) := by
  simp only [jumpsOf, diffsList, idxsWhere, decide_eq_true_eq]

theorem gapRuns_ne_nil (deltime : ℤ) : ∀ ts : List ℤ, ts ≠ [] → gapRuns deltime ts ≠ [] := by
  intro ts hne
  match ts with
  | [t] => simp [gapRuns]
  | t :: t' :: rest =>
    simp only [gapRuns]
    cases gapRuns deltime (t' :: rest) with
    | nil => simp
    | cons r rs => by_cases h : deltime < t' - t <;> simp [h]

theorem sliceChunks_map_succ {β : Type} (x : β) (xs : List β) :
    ∀ (js : List ℕ) (s : ℕ),
      sliceChunks (x :: xs) (js.map (· + 1)) (s + 1) = sliceChunks xs js s := by
  intro js
  induction js with
  | nil => intro s; simp [sliceChunks, List.drop_succ_cons]
  | cons j js ih =>
    intro s
    simp only [List.map_cons, sliceChunks]
    congr 1
    · simp only [pySlice, List.drop_succ_cons]
      congr 1
      omega
    · exact ih (j + 1)

theorem sliceChunks_jumps_eq_gapRuns (deltime : ℤ) :
    ∀ ts : List ℤ, ts ≠ [] →
      sliceChunks ts (jumpsOf deltime ts) 0 = gapRuns deltime ts := by
  intro ts
  induction ts with
  | nil => intro h; exact absurd rfl h
  | cons t tl ih =>
    intro _
    cases tl with
    | nil => rfl
    | cons t' rest =>
      rw [jumpsOf_cons₂]
      have hne' : t' :: rest ≠ [] := by simp
      have hih := ih hne'
      obtain ⟨r, rs, hr⟩ : ∃ r rs, gapRuns deltime (t' :: rest) = r :: rs := by
        cases hg : gapRuns deltime (t' :: rest) with
        | nil => exact absurd hg (gapRuns_ne_nil deltime _ hne')
        | cons r rs => exact ⟨r, rs, rfl⟩
      by_cases hgap : deltime < t' - t
      · rw [if_pos hgap]
        show pySlice (t :: t' :: rest) 0 1 ::
            sliceChunks (t :: t' :: rest) ((jumpsOf deltime (t' :: rest)).map (· + 1)) 1 = _
        rw [show (1 : ℕ) = 0 + 1 from rfl, sliceChunks_map_succ, hih, hr]
        simp only [gapRuns, hr, if_pos hgap]
        rfl
      · rw [if_neg hgap]
        cases hJ : jumpsOf deltime (t' :: rest) with
        | nil =>
          rw [hJ] at hih
          have hr' : gapRuns deltime (t' :: rest) = [t' :: rest] := by
            rw [← hih]; rfl
          simp only [List.map_nil]
          show [t :: t' :: rest] = gapRuns deltime (t :: t' :: rest)
          simp only [gapRuns, hr', if_neg hgap]
        | cons j js =>
          rw [hJ] at hih
          have hih' : pySlice (t' :: rest) 0 (j + 1) ::
              sliceChunks (t' :: rest) js (j + 1) = r :: rs := hih.trans hr
          have hhead : pySlice (t' :: rest) 0 (j + 1) = r := by
            injection hih'
          have htail : sliceChunks (t' :: rest) js (j + 1) = rs := by
            injection hih'
          simp only [List.map_cons]
          show pySlice (t :: t' :: rest) 0 (j + 1 + 1) ::
              sliceChunks (t :: t' :: rest) (js.map (· + 1)) (j + 1 + 1) = _
          rw [sliceChunks_map_succ]
          have hslice : pySlice (t :: t' :: rest) 0 (j + 1 + 1)
              = t :: pySlice (t' :: rest) 0 (j + 1) := by
            simp [pySlice]
          rw [hslice, hhead, htail]
          simp only [gapRuns, hr, if_neg hgap]

theorem idxsWhere_chain {β : Type} (p : β → Bool) :
    ∀ l : List β, List.Chain' (· < ·) (idxsWhere p l) := by
  intro l
  induction l with
  | nil => simp [idxsWhere]
  | cons x xs ih =>
    have hmap : List.Chain' (· < ·) ((idxsWhere p xs).map (· + 1)) :=
      (List.chain'_map _).mpr (ih.imp (by omega))
    by_cases hx : p x
    · simp only [idxsWhere, hx, if_pos]
      refine hmap.cons' ?_
      intro y hy
      cases hil : (idxsWhere p xs).map (· + 1) with
      | nil => rw [hil] at hy; simp at hy
      | cons z zs =>
        rw [hil] at hy
        simp only [List.head?_cons, Option.mem_def, Option.some.injEq] at hy
        obtain ⟨w, _, hw⟩ := List.mem_map.mp (hil ▸ List.mem_cons_self z zs)
        omega
    · simpa [idxsWhere, hx] using hmap

theorem sliceChunks_length {β : Type} (xs : List β) :
    ∀ (js : List ℕ) (s : ℕ), (sliceChunks xs js s).length = js.length + 1 := by
  intro js
  induction js with
  | nil => intro s; rfl
  | cons j js ih => intro s; simp [sliceChunks, ih]

theorem flatten_sliceChunks {β : Type} (xs : List β) :
    ∀ (js : List ℕ) (s : ℕ), List.Pairwise (· < ·) js → (∀ j ∈ js, s ≤ j + 1) →
      (sliceChunks xs js s).flatten = xs.drop s := by
  intro js
  induction js with
  | nil => intro s _ _; simp [sliceChunks]
  | cons j js ih =>
    intro s hp hs
    have htail := ih (j + 1) hp.of_cons
      (fun j' hj' => by have := List.rel_of_pairwise_cons hp hj'; omega)
    simp only [sliceChunks, List.flatten_cons, htail]
    have hsj : s ≤ j + 1 := hs j (by simp)
    rw [pySlice, show xs.drop (j + 1) = (xs.drop s).drop (j + 1 - s) by
      rw [List.drop_drop]; congr 1; omega]
    exact List.take_append_drop _ _

theorem map_time_zipWith {β : Type} :
    ∀ (a : List (List ℤ)) (b : List (List β)), a.length = b.length →
      (List.zipWith Pass.mk a b).map Pass.time = a := by
  intro a
  induction a with
  | nil => intro b _; rfl
  | cons x xs ih =>
    intro b hb
    cases b with
    | nil => simp at hb
    | cons y ys => simpa using ih ys (by simpa using hb)

theorem map_position_zipWith {β : Type} :
    ∀ (a : List (List ℤ)) (b : List (List β)), a.length = b.length →
      (List.zipWith Pass.mk a b).map Pass.position = b := by
  intro a
  induction a with
  | nil =>
    intro b hb
    cases b with
    | nil => rfl
    | cons y ys => simp at hb
  | cons x xs ih =>
    intro b hb
    cases b with
    | nil => simp at hb
    | cons y ys => simpa using ih ys (by simpa using hb)

theorem maskFilter_of_any_false {β : Type} (mask : List Bool) (xs : List β)
    (h : mask.any (fun b => b) = false) : maskFilter mask xs = [] := by
  rw [maskFilter, List.map_eq_nil_iff, List.filter_eq_nil_iff]
  rintro ⟨a, b⟩ hp
  have ha : a ∈ mask := (List.of_mem_zip hp).1
  have := List.any_eq_false.mp h a ha
  simpa using this

theorem any_of_maskFilter_ne_nil {β : Type} (mask : List Bool) (xs : List β)
    (h : maskFilter mask xs ≠ []) : mask.any (fun b => b) = true := by
  rw [List.any_eq_true]
  by_contra hno
  push_neg at hno
  apply h
  rw [maskFilter, List.map_eq_nil_iff, List.filter_eq_nil_iff]
  rintro ⟨a, b⟩ hp
  have ha : a ∈ mask := (List.of_mem_zip hp).1
  simpa using hno a ha

theorem maskFilter_ne_nil {β : Type} :
    ∀ (mask : List Bool) (xs : List β), mask.length = xs.length →
      mask.any (fun b => b) = true → maskFilter mask xs ≠ [] := by
  intro mask
  induction mask with
  | nil => intro xs _ hany; simp at hany
  | cons b ms ih =>
    intro xs hlen hany
    cases xs with
    | nil => simp at hlen
    | cons y ys =>
      cases hb : b with
      | true =>
        simp [maskFilter, List.zip_cons_cons, List.filter_cons]
      | false =>
        have hany' : ms.any (fun x => x) = true := by
          rw [hb] at hany
          simpa using hany
        have := ih ys (by simpa using hlen) hany'
        simpa [maskFilter, List.zip_cons_cons, List.filter_cons] using this

/-- C3: pass segmentation places a boundary between consecutive mask-true
samples exactly where the filtered time gap exceeds the sampling interval, and
each maximal run between boundaries (both ends inclusive) becomes one pass:
the code's jump-slicing equals the spec's gap-run splitting of the filtered
sequence.  In particular, mask `[T,T,F,T,T,T]` on the 1-unit grid `[0..5]`
with `samplingInterval = 1` yields exactly the passes `[0,1]` and `[3,4,5]`,
of lengths 2 and 3. -/
theorem segment_boundary_rule {β : Type} (deltime : ℤ) (times : List ℤ)
    (positions : List β) (mask : List Bool) (hlen : mask.length = times.length) :
    (segmentPasses deltime times positions mask).map Pass.time
      = gapRuns deltime (maskFilter mask times) ∧
    (segmentPasses 1 [0, 1, 2, 3, 4, 5] ([0, 1, 2, 3, 4, 5] : List ℤ)
      [true, true, false, true, true, true]).map Pass.time = [[0, 1], [3, 4, 5]] ∧
    ((segmentPasses 1 [0, 1, 2, 3, 4, 5] ([0, 1, 2, 3, 4, 5] : List ℤ)
      [true, true, false, true, true, true]).map fun p => p.time.length) = [2, 3] := by
  refine ⟨?_, by rfl, by rfl⟩
  unfold segmentPasses
  by_cases hne : maskFilter mask times = []
  · have hanyf : mask.any (fun b => b) = false := by
      cases hany : mask.any (fun b => b) with
      | false => rfl
      | true => exact absurd hne (maskFilter_ne_nil mask times hlen hany)
    have hj : jumpsOf deltime (maskFilter mask times) = [] := by rw [hne]; rfl
    rw [if_pos hj, if_neg (by simp [hanyf]), hne]
    rfl
  · have hany := any_of_maskFilter_ne_nil mask times hne
    by_cases hj : jumpsOf deltime (maskFilter mask times) = []
    · rw [if_pos hj, if_pos hany,
        ← sliceChunks_jumps_eq_gapRuns deltime _ hne, hj]
      rfl
    · rw [if_neg hj,
        map_time_zipWith _ _ (by rw [sliceChunks_length, sliceChunks_length])]
      exact sliceChunks_jumps_eq_gapRuns deltime _ hne

/-- Witness for `segment_boundary_rule` at the claim's own example input. -/
theorem segment_boundary_rule_witness :
    (segmentPasses 1 [0, 1, 2, 3, 4, 5] ([0, 1, 2, 3, 4, 5] : List ℤ)
        [true, true, false, true, true, true]).map Pass.time
      = gapRuns 1 (maskFilter [true, true, false, true, true, true]
          [0, 1, 2, 3, 4, 5]) ∧
    (segmentPasses 1 [0, 1, 2, 3, 4, 5] ([0, 1, 2, 3, 4, 5] : List ℤ)
      [true, true, false, true, true, true]).map Pass.time = [[0, 1], [3, 4, 5]] ∧
    ((segmentPasses 1 [0, 1, 2, 3, 4, 5] ([0, 1, 2, 3, 4, 5] : List ℤ)
      [true, true, false, true, true, true]).map fun p => p.time.length) = [2, 3] :=
  segment_boundary_rule 1 [0, 1, 2, 3, 4, 5] [0, 1, 2, 3, 4, 5]
    [true, true, false, true, true, true] (by decide)

/-- C10: the passes exactly partition the mask-true samples — concatenating
the pass time lists (resp. position lists), in order, reproduces precisely
the mask-filtered time (resp. position) subsequence (so nothing is dropped,
duplicated, or gained), and an all-false mask yields the empty pass list. -/
theorem segment_partitions_mask {β : Type} (deltime : ℤ) (times : List ℤ)
    (positions : List β) (mask : List Bool) :
    ((segmentPasses deltime times positions mask).map Pass.time).flatten
      = maskFilter mask times ∧
    ((segmentPasses deltime times positions mask).map Pass.position).flatten
      = maskFilter mask positions ∧
    (mask.all (fun b => !b) = true → segmentPasses deltime times positions mask = []) := by
  have hpw : List.Pairwise (· < ·) (jumpsOf deltime (maskFilter mask times)) :=
    (List.chain'_iff_pairwise).mp (idxsWhere_chain _ _)
  refine ⟨?_, ?_, ?_⟩
  · unfold segmentPasses
    by_cases hj : jumpsOf deltime (maskFilter mask times) = []
    · rw [if_pos hj]
      by_cases hany : mask.any (fun b => b) = true
      · rw [if_pos hany]; simp
      · have hf : mask.any (fun b => b) = false := by simpa using hany
        rw [if_neg hany, maskFilter_of_any_false mask times hf]
        rfl
    · rw [if_neg hj,
        map_time_zipWith _ _ (by rw [sliceChunks_length, sliceChunks_length])]
      simpa using flatten_sliceChunks (maskFilter mask times) _ 0 hpw (by omega)
  · unfold segmentPasses
    by_cases hj : jumpsOf deltime (maskFilter mask times) = []
    · rw [if_pos hj]
      by_cases hany : mask.any (fun b => b) = true
      · rw [if_pos hany]; simp
      · have hf : mask.any (fun b => b) = false := by simpa using hany
        rw [if_neg hany, maskFilter_of_any_false mask positions hf]
        rfl
    · rw [if_neg hj,
        map_position_zipWith _ _ (by rw [sliceChunks_length, sliceChunks_length])]
      simpa using flatten_sliceChunks (maskFilter mask positions) _ 0 hpw (by omega)
  · intro hall
    have hanyf : mask.any (fun b => b) = false := by
      rw [List.any_eq_false]
      intro x hx
      have := List.all_eq_true.mp hall x hx
      simp at this
      simp [this]
    have hct : maskFilter mask times = [] := maskFilter_of_any_false _ _ hanyf
    have hj : jumpsOf deltime (maskFilter mask times) = [] := by rw [hct]; rfl
    unfold segmentPasses
    rw [if_pos hj, if_neg (by simp [hanyf])]

/-- C6: the sidereal-time frame rotation is rigid — for every timestamp
(Julian date) and every input position vector, the Euclidean norm of the
rotated (Earth-fixed) position equals the norm of the original
(pseudo-inertial) position. -/
theorem frame_rotation_rigid (JD : ℝ) (p : Vec3) :
    norm3 (rotPEF (gmstAngle JD) p) = norm3 p := by
  unfold norm3 rotPEF dot3
  congr 1
  have h := Real.sin_sq_add_cos_sq (gmstAngle JD)
  linear_combination (p.1 * p.1 + p.2.1 * p.2.1) * h

/-- C4 evaluated at the degenerate geometry: when the satellite position
equals the site position the satellite-site vector has zero length, and the
code divides the dot product by the zero norm — `0/0` (a NaN in IEEE floats;
`0` under the real-field convention used here) — so the computed angle is 90°
(IEEE: NaN) rather than the claimed 0°, and the sample is NOT marked in
conjunction at the default tolerance 25° (IEEE: at any tolerance). -/
theorem zenith_degenerate_eval :
    norm3 (sub3 (1, 0, 0) (1, 0, 0)) = 0 ∧
    zenith_angle (sub3 (1, 0, 0) (1, 0, 0)) (0, 0, 1) = 90 ∧
    ¬ zenith_angle (sub3 (1, 0, 0) (1, 0, 0)) (0, 0, 1) < 25 ∧
    satConjMask "zenith" 25 (1, 0, 0) (0, 0, 1) [(1, 0, 0)]
      = .ok [zenith_angle (sub3 (1, 0, 0) (1, 0, 0)) (0, 0, 1) < 25] := by
  have hsub : sub3 ((1 : ℝ), (0 : ℝ), (0 : ℝ)) (1, 0, 0) = (0, 0, 0) := by
    simp [sub3]
  have hnorm : norm3 (sub3 ((1 : ℝ), (0 : ℝ), (0 : ℝ)) (1, 0, 0)) = 0 := by
    rw [hsub]
    unfold norm3 dot3
    norm_num
  have hangle : zenith_angle (sub3 ((1 : ℝ), (0 : ℝ), (0 : ℝ)) (1, 0, 0)) (0, 0, 1) = 90 := by
    unfold zenith_angle
    rw [hnorm, div_zero, Real.arccos_zero]
    field_simp
    ring
  refine ⟨hnorm, hangle, ?_, ?_⟩
  · rw [hangle]; norm_num
  · rfl

/-- C5: the bounding-box mask of `satellite_conjunctions.conjunctions` is
true exactly where both `|sat_lat - radar_lat| < lattol` and
`|sat_lon - radar_lon| < lontol` hold — the whole mask equals the pointwise
conjunction of the two box conditions, for every input series, site and
tolerance pair.  The copy of this branch in `SatConj.conjunctions`
(`satellite_conjunction.py` line 126) references the undefined names
`radar_lat`/`radar_lon`/`latlontol` and therefore produces no mask at all. -/
theorem latlon_box_iff :
    (∀ (sat_lat sat_lon : List ℚ) (radar_lat radar_lon lattol lontol : ℚ),
      latlonMask sat_lat sat_lon radar_lat radar_lon lattol lontol
        = List.zipWith (fun la lo =>
            decide (|la - radar_lat| < lattol ∧ |lo - radar_lon| < lontol))
          sat_lat sat_lon) ∧
    satConjMask "latlon" 25 (1, 0, 0) (0, 0, 1) [(1, 2, 3)]
      = .error .undefinedRadarSite := by
  constructor
  · intro sat_lat sat_lon radar_lat radar_lon lattol lontol
    rw [latlonMask, List.zipWith_map_left, List.zipWith_map_right]
    congr 1
    funext la lo
    exact (Bool.decide_and _ _).symm
  · rfl

/-- C8: for every criterion name that is neither `"zenith"` nor `"latlon"`,
the proximity evaluator fails: no branch assigns the conjunction mask, and
its first use raises the failure the spec names `InvalidCriterionError`. -/
theorem invalid_criterion_fails (conjtype : String) (tolerance : ℝ)
    (site_coords zen_vec : Vec3) (sat_position : List Vec3)
    (hz : conjtype ≠ "zenith") (hl : conjtype ≠ "latlon") :
    satConjMask conjtype tolerance site_coords zen_vec sat_position
      = .error .invalidCriterion := by
  unfold satConjMask
  rw [if_neg hz, if_neg hl]

/-- Witness for `invalid_criterion_fails` at the criterion name `"bogus"`. -/
theorem invalid_criterion_fails_witness :
    ("bogus" : String) ≠ "zenith" ∧ ("bogus" : String) ≠ "latlon" ∧
    satConjMask "bogus" 25 (1, 0, 0) (0, 0, 1) [(1, 2, 3)]
      = .error .invalidCriterion :=
  ⟨by decide, by decide,
    invalid_criterion_fails "bogus" 25 (1, 0, 0) (0, 0, 1) [(1, 2, 3)]
      (by decide) (by decide)⟩

/-- C9: the zenith-criterion mask is monotone in the tolerance — for a fixed
position series and site geometry, every sample in conjunction at tolerance
`t1` is also in conjunction at any tolerance `t2 ≥ t1`. -/
theorem zenith_mask_monotone (site_coords zen_vec : Vec3)
    (sat_position : List Vec3) (t1 t2 : ℝ) (h12 : t1 ≤ t2) (i : ℕ)
    (h1 : (zenithMask site_coords zen_vec t1 sat_position).getD i False) :
    (zenithMask site_coords zen_vec t2 sat_position).getD i False := by
  by_cases hi : i < sat_position.length
  · have hi1 : i < (zenithMask site_coords zen_vec t1 sat_position).length := by
      simpa [zenithMask] using hi
    have hi2 : i < (zenithMask site_coords zen_vec t2 sat_position).length := by
      simpa [zenithMask] using hi
    rw [List.getD_eq_getElem _ _ hi1] at h1
    rw [List.getD_eq_getElem _ _ hi2]
    simp only [zenithMask, List.getElem_map] at h1 ⊢
    exact lt_of_lt_of_le h1 h12
  · have hlen : (zenithMask site_coords zen_vec t1 sat_position).length ≤ i := by
      simp only [zenithMask, List.length_map]
      omega
    rw [List.getD_eq_default _ _ hlen] at h1
    exact h1.elim

/-- Witness for `zenith_mask_monotone`: satellite directly overhead (angle 0),
tolerances 10° and 20°. -/
theorem zenith_mask_monotone_witness :
    (10 : ℝ) ≤ 20 ∧
    (zenithMask (0, 0, 0) (0, 0, 1) 10 [(0, 0, 1)]).getD 0 False ∧
    (zenithMask (0, 0, 0) (0, 0, 1) 20 [(0, 0, 1)]).getD 0 False := by
  have h1 : (zenithMask (0, 0, 0) (0, 0, 1) 10 [((0 : ℝ), (0 : ℝ), (1 : ℝ))]).getD 0 False := by
    show zenith_angle (sub3 (0, 0, 1) (0, 0, 0)) (0, 0, 1) < 10
    have hsub : sub3 ((0 : ℝ), (0 : ℝ), (1 : ℝ)) (0, 0, 0) = (0, 0, 1) := by
      simp [sub3]
    rw [hsub]
    unfold zenith_angle norm3 dot3
    norm_num
  exact ⟨by norm_num, h1,
    zenith_mask_monotone (0, 0, 0) (0, 0, 1) [(0, 0, 1)] 10 20 (by norm_num) 0 h1⟩

/-- Witness for `segment_partitions_mask` at an all-false mask. -/
theorem segment_partitions_mask_witness :
    ([false, false] : List Bool).all (fun b => !b) = true ∧
    segmentPasses 1 [0, 1] ([5, 6] : List ℤ) [false, false] = [] :=
  ⟨by decide,
    (segment_partitions_mask 1 [0, 1] ([5, 6] : List ℤ) [false, false]).2.2 (by decide)⟩
